import Mathlib

/-!
# PacketChat: a verification development for `main.go`

A shallow embedding of the LAN broadcast chat client.  Go strings are byte
sequences, the package-level variables (`messages`, `input`, `conn`,
`localSrcPort`, the screen size) are the fields of an explicit `State`, and
every effect the program performs on a collaborator (mutex operations, screen
calls, the datagram write, `os.Exit`) is appended to `State.trace` in program
order.  A function that may not return normally (`os.Exit`, an index panic, a
loop that never ends) returns an `Outcome` that says so.

A Go `int` is an integer of the 64-bit range; the additions and subtractions
the program makes on `int` values wrap around in two's complement (`wrapInt`).
Functions of the Go standard library (`utf8`, `strings`, `bytes`) are
modelled after their sources.
-/

namespace PacketChat

/-! ## Go strings and the parts of the standard library the program calls -/

/-- A Go `string` (or `[]byte`): a finite sequence of bytes, each a number below 256. -/
abbrev GoString := List Nat

/-- An ASCII string literal of the source as a Go string. -/
def lit (s : String) : GoString := s.toList.map Char.toNat

/-- Go `utf8.RuneError`, U+FFFD. -/
def RuneError : Int := 0xFFFD

/-- Go `utf8.RuneSelf`: bytes below it are single-byte runes. -/
def RuneSelf : Nat := 0x80

/-- Go `string(r)` for a rune `r` (`utf8.AppendRune`): the UTF-8 encoding, with
negative values, surrogates and values above U+10FFFF encoded as U+FFFD. -/
def encodeRune (r : Int) : GoString :=
  let v := r.toNat
  if r < 0 then [0xEF, 0xBF, 0xBD]
  else if v ≤ 0x7F then [v]
  else if v ≤ 0x7FF then [0xC0 + v / 64, 0x80 + v % 64]
  else if v > 0x10FFFF ∨ (0xD800 ≤ v ∧ v ≤ 0xDFFF) then [0xEF, 0xBF, 0xBD]
  else if v ≤ 0xFFFF then [0xE0 + v / 4096, 0x80 + v / 64 % 64, 0x80 + v % 64]
  else [0xF0 + v / 262144, 0x80 + v / 4096 % 64, 0x80 + v / 64 % 64, 0x80 + v % 64]

/-- Go `utf8.DecodeRuneInString`: the first rune of `s` and its width in bytes;
`(RuneError, 0)` for the empty string and `(RuneError, 1)` for an invalid
encoding.  The masks `b & 0x1F`, `b & 0x0F`, `b & 0x07`, `b & 0x3F` and the
shifts are written as remainders and products. -/
def DecodeRuneInString (s : GoString) : Int × Nat :=
  match s with
  | [] => (RuneError, 0)
  | s0 :: t =>
    if s0 < RuneSelf then ((s0 : Int), 1)
    else if s0 < 0xC2 ∨ 0xF4 < s0 then (RuneError, 1)
    else
      let sz : Nat := if s0 < 0xE0 then 2 else if s0 < 0xF0 then 3 else 4
      let lo : Nat := if s0 = 0xE0 then 0xA0 else if s0 = 0xF0 then 0x90 else 0x80
      let hi : Nat := if s0 = 0xED then 0x9F else if s0 = 0xF4 then 0x8F else 0xBF
      if s.length < sz then (RuneError, 1)
      else
        match t with
        | [] => (RuneError, 1)
        | s1 :: t1 =>
          if s1 < lo ∨ hi < s1 then (RuneError, 1)
          else if sz ≤ 2 then (((s0 % 32 * 64 + s1 % 64 : Nat) : Int), 2)
          else
            match t1 with
            | [] => (RuneError, 1)
            | s2 :: t2 =>
              if s2 < 0x80 ∨ 0xBF < s2 then (RuneError, 1)
              else if sz ≤ 3 then (((s0 % 16 * 4096 + s1 % 64 * 64 + s2 % 64 : Nat) : Int), 3)
              else
                match t2 with
                | [] => (RuneError, 1)
                | s3 :: _ =>
                  if s3 < 0x80 ∨ 0xBF < s3 then (RuneError, 1)
                  else (((s0 % 8 * 262144 + s1 % 64 * 4096 + s2 % 64 * 64 + s3 % 64 : Nat) : Int), 4)

/-- Go `utf8.RuneStart`: the byte is not a continuation byte. -/
def RuneStart (b : Nat) : Bool := b / 64 % 4 != 2

/-- The backward scan of `utf8.DecodeLastRuneInString`: starting below the last
byte, step down while the index is at least `lim` and the byte there is a
continuation byte.  `rev` holds the bytes before the current index, nearest
first, `start` is the index of `rev.head`. -/
def lastRuneStart (lim : Int) : List Nat → Int → Int
  | [], start => start
  | b :: rev, start =>
    if start < lim then start
    else if RuneStart b then start
    else lastRuneStart lim rev (start - 1)

/-- Go `utf8.DecodeLastRuneInString`: the last rune of `s` and its width. -/
def DecodeLastRuneInString (s : GoString) : Int × Nat :=
  match s.reverse with
  | [] => (RuneError, 0)
  | last :: rev =>
    if last < RuneSelf then ((last : Int), 1)
    else
      let stop : Int := s.length
      let lim : Int := if stop - 4 < 0 then 0 else stop - 4
      let start : Int := lastRuneStart lim rev (stop - 2)
      let start : Int := if start < 0 then 0 else start
      let d := DecodeRuneInString (s.drop start.toNat)
      if start + (d.2 : Int) ≠ stop then (RuneError, 1) else d

/-- The loop `for i, r := range s` over a Go string: the byte offset and the
decoded rune of every step.  Each step consumes at least one byte, so
`fuel = len(s)` steps always reach the end. -/
def rangeLoop : Nat → Nat → GoString → List (Nat × Int)
  | 0, _, _ => []
  | fuel + 1, i, s =>
    match s with
    | [] => []
    | _ :: _ =>
      let d := DecodeRuneInString s
      (i, d.1) :: rangeLoop fuel (i + d.2) (s.drop d.2)

/-- The pairs `(i, r)` that `for i, r := range s` visits, in order. -/
def rangeString (s : GoString) : List (Nat × Int) := rangeLoop s.length 0 s

/-- Go `strings.asciiSpace`: tab, newline, vertical tab, form feed, carriage return, space. -/
def asciiSpace (c : Nat) : Bool :=
  c == 9 || c == 10 || c == 11 || c == 12 || c == 13 || c == 32

/-- Go `unicode.IsSpace`. -/
def IsSpace (r : Int) : Bool :=
  r == 9 || r == 10 || r == 11 || r == 12 || r == 13 || r == 32 || r == 0x85 || r == 0xA0
    || r == 0x1680 || (0x2000 ≤ r && r ≤ 0x200A) || r == 0x2028 || r == 0x2029
    || r == 0x202F || r == 0x205F || r == 0x3000

/-- Go `strings.indexFunc(s, f, truth)`: the offset of the first rune `r` with
`f(r) == truth`, or `-1`. -/
def indexFunc (s : GoString) (f : Int → Bool) (truth : Bool) : Int :=
  match (rangeString s).find? (fun p => f p.2 == truth) with
  | some p => (p.1 : Int)
  | none => -1

/-- The loop of Go `strings.lastIndexFunc`, at index `i`, decoding backwards. -/
def lastIndexLoop (s : GoString) (f : Int → Bool) (truth : Bool) : Nat → Nat → Int
  | 0, _ => -1
  | fuel + 1, i =>
    if i > 0 then
      let d := DecodeLastRuneInString (s.take i)
      let i := i - d.2
      if f d.1 == truth then (i : Int) else lastIndexLoop s f truth fuel i
    else -1

/-- Go `strings.lastIndexFunc(s, f, truth)`; every step moves down by at least
one byte, so `len(s)` steps of fuel reach index 0. -/
def lastIndexFunc (s : GoString) (f : Int → Bool) (truth : Bool) : Int :=
  lastIndexLoop s f truth s.length s.length

/-- Go `strings.TrimLeftFunc`. -/
def TrimLeftFunc (s : GoString) (f : Int → Bool) : GoString :=
  let i := indexFunc s f false
  if i = -1 then [] else s.drop i.toNat

/-- Go `strings.TrimRightFunc`. -/
def TrimRightFunc (s : GoString) (f : Int → Bool) : GoString :=
  let i := lastIndexFunc s f false
  if 0 ≤ i ∧ RuneSelf ≤ s.getD i.toNat 0 then
    s.take (i.toNat + (DecodeRuneInString (s.drop i.toNat)).2)
  else s.take (i + 1).toNat

/-- Go `strings.TrimFunc`. -/
def TrimFunc (s : GoString) (f : Int → Bool) : GoString :=
  TrimRightFunc (TrimLeftFunc s f) f

/-- The second loop of Go `strings.TrimSpace`, on `s[start:]` read from its
end (`rev` is that substring reversed): drop trailing ASCII space, and fall
back to `TrimRightFunc` at the first non-ASCII byte. -/
def trimSpaceStop : List Nat → GoString
  | [] => []
  | c :: rev =>
    if RuneSelf ≤ c then TrimRightFunc (c :: rev).reverse IsSpace
    else if asciiSpace c then trimSpaceStop rev
    else (c :: rev).reverse

/-- Go `strings.TrimSpace`: the first loop drops leading ASCII space and falls
back to `TrimFunc` at the first non-ASCII byte; the second loop trims the end. -/
def TrimSpace : GoString → GoString
  | [] => []
  | c :: rest =>
    if RuneSelf ≤ c then TrimFunc (c :: rest) IsSpace
    else if asciiSpace c then TrimSpace rest
    else trimSpaceStop (c :: rest).reverse

/-- Go `bytes.Trim(b, "\x00")`: for a one-byte ASCII cutset Go strips that byte
from the right end and then from the left end. -/
def trimNul (b : GoString) : GoString :=
  (b.rdropWhile (fun c => c == 0)).dropWhile (fun c => c == 0)

/-- Go `strings.HasPrefix`. -/
def HasPrefix (s pre : GoString) : Bool :=
  s.length ≥ pre.length && s.take pre.length == pre

/-! ## Collaborators: colours, styles, keys, packets -/

namespace tcell

/-- The `tcell` colours the program uses. -/
inductive Color
  | ColorBlack | ColorDodgerBlue | ColorRed | ColorYellow | ColorGreen
  | ColorWhite | ColorGray | ColorAqua
  deriving DecidableEq

/-- A `tcell.Style`: optional foreground and background colours. -/
structure Style where
  fg : Option Color
  bg : Option Color
  deriving DecidableEq

/-- The value `tcell.StyleDefault`. -/
def StyleDefault : Style := ⟨none, none⟩

/-- The method `Style.Foreground`. -/
def Style.Foreground (st : Style) (c : Color) : Style := { st with fg := some c }

/-- The method `Style.Background`. -/
def Style.Background (st : Style) (c : Color) : Style := { st with bg := some c }

/-- The keys `eventLoop` tells apart; every other key is `KeyOther`. -/
inductive Key
  | KeyEsc | KeyBackspace | KeyBackspace2 | KeyEnter | KeyOther
  deriving DecidableEq

/-- The terminal events `eventLoop` tells apart: a resize, a key with its rune,
anything else. -/
inductive Event
  | EventResize
  | EventKey (key : Key) (rune : Int)
  | EventOther
  deriving DecidableEq

end tcell

/-- The UDP layer of a captured packet (`layers.UDP`): source port and payload. -/
structure UDP where
  SrcPort : Nat
  Payload : GoString
  deriving DecidableEq

/-- A captured packet: `pkt.Layer(layers.LayerTypeUDP)` is `nil` or a UDP layer. -/
structure Packet where
  udpLayer : Option UDP
  deriving DecidableEq

/-! ## Program state and effects -/

/-- The type `Message` of the source. -/
structure Message where
  Text : GoString
  Color : tcell.Color
  deriving DecidableEq

/-- The constant `serverPort`. -/
def serverPort : Nat := 9000

/-- The constant `maxMessages`. -/
@[irreducible] def maxMessages : Nat := 1000

/-- The three mutexes of the program. -/
inductive Mutex
  | screenLock | msgLock | inputLock
  deriving DecidableEq

/-- A call the program makes on a collaborator, recorded in program order. -/
inductive Effect
  | Lock (m : Mutex)
  | Unlock (m : Mutex)
  | Clear
  | Show
  | Fini
  | SetContent (x y : Int) (r : Int) (style : tcell.Style)
  | Write (b : GoString)
  | Exit (code : Int)
  deriving DecidableEq

/-- The package-level variables the modelled functions read or write, what
`screen.Size()` returns, and the effects performed so far. -/
structure State where
  username : GoString
  messages : List Message
  input : GoString
  connected : Bool
  localSrcPort : Nat
  size : Int × Int
  trace : List Effect
  deriving DecidableEq

/-- Record one effect. -/
def State.emit (s : State) (e : Effect) : State := { s with trace := s.trace ++ [e] }

/-- Why a function did not return: a run-time panic, or a loop that never ends. -/
inductive Fault
  | panicked | diverged
  deriving DecidableEq

/-- How a function that may stop the activity ends: it returns (`ok`), the
process exits (`exited`), or it faults; each with the state reached. -/
inductive Outcome
  | ok (s : State)
  | exited (s : State)
  | faulted (f : Fault) (s : State)
  deriving DecidableEq

/-- The state an outcome carries. -/
def Outcome.state : Outcome → State
  | .ok s => s
  | .exited s => s
  | .faulted _ s => s

/-- Go arithmetic on 64-bit `int`: the mathematical result of an addition or
subtraction wraps around in two's complement into `[-2^63, 2^63)`. -/
def wrapInt (x : Int) : Int :=
  (x + 9223372036854775808) % 18446744073709551616 - 9223372036854775808

/-! ## The functions of `main.go` -/

/-- Go `net.IP.To4` on the byte slice of a `net.IP`: the four bytes of a 4-byte
address or of an IPv4-mapped 16-byte address, and `nil` (`none`) otherwise. -/
def To4 (ip : List Nat) : Option (List Nat) :=
  if ip.length = 4 then some ip
  else if ip.length = 16 ∧ ip.take 10 = List.replicate 10 0 ∧ ip.getD 10 0 = 0xff
      ∧ ip.getD 11 0 = 0xff then some (ip.drop 12)
  else none

/-- The function `calcBroadcast`: `fmt.Sprintf("%d.%d.%d.255", ip4[0], ip4[1], ip4[2])`
on `ip4 = ip.To4()`; indexing a `nil` slice panics (`none`). -/
def calcBroadcast (ip : List Nat) : Option String :=
  match To4 ip with
  | some (a :: b :: c :: _) =>
    some (toString a ++ "." ++ toString b ++ "." ++ toString c ++ ".255")
  | _ => none

/-- The function `addMessage`. -/
def addMessage (text : GoString) (color : tcell.Color) (s : State) : State :=
  let s := s.emit (.Lock .msgLock)
  let messages := s.messages ++ [Message.mk text color]
  let messages :=
    if messages.length > maxMessages then messages.drop (messages.length - maxMessages)
    else messages
  ({ s with messages := messages }).emit (.Unlock .msgLock)

/-- The loop of `wrap` with `fuel` iterations left: `s[:w]` panics for a
negative `w`; running out of fuel stands for a loop that has not ended. -/
def wrapLoop : Nat → GoString → Int → List GoString → Except Fault (List GoString)
  | 0, _, _, _ => .error .diverged
  | fuel + 1, s, w, out =>
    if (s.length : Int) > w then
      if w < 0 then .error .panicked
      else wrapLoop fuel (s.drop w.toNat) w (out ++ [s.take w.toNat])
    else .ok (out ++ [s])

/-- The function `wrap`.  With `len(s) + 1` iterations of fuel the loop ends
whenever it ends at all (`wrapLoop_fuel`). -/
def wrap (s : GoString) (w : Int) : Except Fault (List GoString) :=
  wrapLoop (s.length + 1) s w []

/-- The function `printLine`. -/
def printLine (x y : Int) (text : GoString) (color : tcell.Color) (s : State) : State :=
  let style := tcell.StyleDefault.Foreground color
  (rangeString text).foldl
    (fun s p => s.emit (.SetContent (wrapInt (x + (p.1 : Int))) y p.2 style)) s

/-- The function `drawHeader`; Go integer division truncates toward zero. -/
def drawHeader (w : Int) (s : State) : State :=
  let style := (tcell.StyleDefault.Foreground .ColorBlack).Background .ColorDodgerBlue
  let s := (List.range w.toNat).foldl (fun s x => s.emit (.SetContent (x : Int) 0 32 style)) s
  let title := lit " LAN UDP CHAT "
  (rangeString title).foldl
    (fun s p => s.emit (.SetContent
      (wrapInt (Int.tdiv (wrapInt (w - (title.length : Int))) 2 + (p.1 : Int))) 0 p.2 style)) s

/-- The first loop of `drawMessages`: `total += len(wrap(m.Text, w))`. -/
def totalLines (w : Int) : List Message → Int → Except Fault Int
  | [], total => .ok total
  | m :: ms, total =>
    match wrap m.Text w with
    | .ok ls => totalLines w ms (wrapInt (total + (ls.length : Int)))
    | .error f => .error f

/-- The inner loop of `drawMessages` over the wrapped lines of one message:
skip while `line < skip`, otherwise print on row `y` and move down a row. -/
def paintLines (skip : Int) (color : tcell.Color) :
    List GoString → Int × Int × State → Int × Int × State
  | [], acc => acc
  | l :: ls, (line, y, s) =>
    if line < skip then paintLines skip color ls (wrapInt (line + 1), y, s)
    else paintLines skip color ls (line, wrapInt (y + 1), printLine 0 y l color s)

/-- The second loop of `drawMessages` over the messages. -/
def paintMessages (w skip : Int) :
    List Message → Int × Int × State → Except (Fault × State) (Int × Int × State)
  | [], acc => .ok acc
  | m :: ms, acc =>
    match wrap m.Text w with
    | .ok ls => paintMessages w skip ms (paintLines skip m.Color ls acc)
    | .error f => .error (f, acc.2.2)

/-- The function `drawMessages`.  The deferred `msgLock.Unlock()` also runs
when the function panics. -/
def drawMessages (w h : Int) (s : State) : Outcome :=
  let s := s.emit (.Lock .msgLock)
  match totalLines w s.messages 0 with
  | .error .panicked => .faulted .panicked (s.emit (.Unlock .msgLock))
  | .error .diverged => .faulted .diverged s
  | .ok total =>
    let skip : Int :=
      if total > wrapInt (h - 2) then wrapInt (total - wrapInt (h - 2)) else 0
    match paintMessages w skip s.messages (0, 1, s) with
    | .error (.panicked, s) => .faulted .panicked (s.emit (.Unlock .msgLock))
    | .error (.diverged, s) => .faulted .diverged s
    | .ok (_, _, s) => .ok (s.emit (.Unlock .msgLock))

/-- The string `bar` of `drawInput` after the truncation: `bar[len(bar)-w:]`
panics for a negative `w` (the bound exceeds `len(bar)`, or has wrapped below
zero), and for `0 <= w < len(bar)` the subtraction does not wrap. -/
def inputBar (w : Int) (input : GoString) : Except Fault GoString :=
  let bar := lit "> " ++ input
  if (bar.length : Int) > w then
    if w < 0 then .error .panicked
    else .ok (bar.drop (bar.length - w.toNat))
  else .ok bar

/-- The function `drawInput`. -/
def drawInput (w h : Int) (s : State) : Outcome :=
  let s := s.emit (.Lock .inputLock)
  let style := tcell.StyleDefault.Foreground .ColorAqua
  match inputBar w s.input with
  | .error f => .faulted f (s.emit (.Unlock .inputLock))
  | .ok bar =>
    let s := (List.range w.toNat).foldl
      (fun s x => s.emit (.SetContent (x : Int) (wrapInt (h - 1)) 32 style)) s
    let s := (rangeString bar).foldl
      (fun s p => s.emit (.SetContent (p.1 : Int) (wrapInt (h - 1)) p.2 style)) s
    .ok (s.emit (.Unlock .inputLock))

/-- What the deferred `screenLock.Unlock()` of `drawScreen` does to the
outcome of a callee: it runs on a panic, and never after a loop that hangs. -/
def unlockOnPanic (m : Mutex) : Outcome → Outcome
  | .faulted .panicked s => .faulted .panicked (s.emit (.Unlock m))
  | o => o

/-- The function `drawScreen`. -/
def drawScreen (s : State) : Outcome :=
  let s := s.emit (.Lock .screenLock)
  let s := s.emit .Clear
  let w := s.size.1
  let h := s.size.2
  let s := drawHeader w s
  match drawMessages w h s with
  | .ok s =>
    match drawInput w h s with
    | .ok s => .ok ((s.emit .Show).emit (.Unlock .screenLock))
    | o => unlockOnPanic .screenLock o
  | o => unlockOnPanic .screenLock o

/-- The function `send`.  `writeErr` is what `conn.Write` returns: `none` for
success, `some e` for an error with text `e`; `connected` is `conn != nil`. -/
def send (text : GoString) (user : Bool) (writeErr : Option GoString) (s : State) : State :=
  let msg := if user then s.username ++ lit ": " ++ text else text
  if !s.connected then addMessage (lit "Not connected") .ColorRed s
  else
    let s := s.emit (.Write msg)
    match writeErr with
    | some e => addMessage (lit "Send error: " ++ e) .ColorRed s
    | none => if user then addMessage msg .ColorGreen s else s

/-- The function `handleCmd`. -/
def handleCmd (cmd : GoString) (s : State) : Outcome :=
  if cmd = lit "/exit" ∨ cmd = lit "/e" then
    .exited ((s.emit .Fini).emit (.Exit 0))
  else if cmd = lit "/help" ∨ cmd = lit "/h" ∨ cmd = lit "/?" ∨ cmd = lit "/commands" then
    let s := addMessage (lit "COMMAND       DESCRIPTION") .ColorWhite s
    let s := addMessage (lit "/exit, /e     Quit the session") .ColorGray s
    .ok (addMessage (lit "/help, /h     Show this list!") .ColorGray s)
  else .ok (addMessage (lit "Unknown command: " ++ cmd) .ColorRed s)

/-- The tail of the `EventKey` case of `eventLoop` once the key is handled:
`inputLock.Unlock()` and `drawScreen()`. -/
def unlockAndDraw (s : State) : Outcome :=
  drawScreen (s.emit (.Unlock .inputLock))

/-- One iteration of the loop of `eventLoop`, for the polled event `ev`;
`writeErr` is the result of the datagram write, should the iteration make one. -/
def eventLoopStep (ev : tcell.Event) (writeErr : Option GoString) (s : State) : Outcome :=
  match ev with
  | .EventResize => drawScreen s
  | .EventKey key rune =>
    let s := s.emit (.Lock .inputLock)
    match key with
    | .KeyEsc => .exited ((s.emit .Fini).emit (.Exit 0))
    | .KeyBackspace | .KeyBackspace2 =>
      let s := if s.input.length > 0 then { s with input := s.input.take (s.input.length - 1) } else s
      unlockAndDraw s
    | .KeyEnter =>
      let txt := TrimSpace s.input
      if txt ≠ [] then
        if HasPrefix txt (lit "/") then
          match handleCmd txt s with
          | .ok s => unlockAndDraw { s with input := [] }
          | o => o
        else unlockAndDraw { send txt true writeErr s with input := [] }
      else unlockAndDraw { s with input := [] }
    | .KeyOther =>
      let s := if rune ≠ 0 then { s with input := s.input ++ encodeRune rune } else s
      unlockAndDraw s
  | .EventOther => .ok s

/-- The function `eventLoop` on the events that `screen.PollEvent()` returns
in turn, each with the result of the datagram write it may trigger; the loop
goes on as long as an iteration returns. -/
def eventLoop : List (tcell.Event × Option GoString) → State → Outcome
  | [], s => .ok s
  | (ev, writeErr) :: rest, s =>
    match eventLoopStep ev writeErr s with
    | .ok s => eventLoop rest s
    | o => o

/-- One iteration of the receive loop of `sniffLoop`, for the captured packet `pkt`. -/
def sniffLoopStep (pkt : Packet) (s : State) : Outcome :=
  match pkt.udpLayer with
  | none => .ok s
  | some udp =>
    if udp.SrcPort = s.localSrcPort then .ok s
    else
      let raw := TrimSpace (trimNul udp.Payload)
      if raw = [] then .ok s
      else drawScreen (addMessage raw .ColorYellow s)

/-! ## Definitions used to state the properties -/

/-- A sequence of `addMessage` calls, one per element of `calls`, in order. -/
def addMessageCalls (calls : List Message) (s : State) : State :=
  calls.foldl (fun s m => addMessage m.Text m.Color s) s


/-- The `SetContent` calls of one `printLine(x, y, text, color)`. -/
def printLineEffects (x y : Int) (text : GoString) (color : tcell.Color) : List Effect :=
  (rangeString text).map
    (fun p => Effect.SetContent (wrapInt (x + (p.1 : Int))) y p.2
      (tcell.StyleDefault.Foreground color))

/-- The lines `wrap(text, w)` returns (no lines when it does not return). -/
def wrapped (text : GoString) (w : Int) : List GoString :=
  match wrap text w with
  | .ok ls => ls
  | .error _ => []

/-- The concatenation, in log order, of `wrap(m.Text, w)` for each message
`m`, every line paired with the colour of its message. -/
def wrappedLines (w : Int) (messages : List Message) : List (GoString × tcell.Color) :=
  messages.flatMap (fun m => (wrapped m.Text w).map (fun l => (l, m.Color)))

/-- Painting the given lines on consecutive rows starting at row `y`, each by
one `printLine(0, row, line, colour)`. -/
def paintRows (y : Int) : List (GoString × tcell.Color) → List Effect
  | [] => []
  | (l, c) :: rest => printLineEffects 0 y l c ++ paintRows (y + 1) rest

/-- The part of a trace that matters for locking: mutex operations and
datagram writes (their payload erased), in order. -/
def syncOf : List Effect → List Effect
  | [] => []
  | .Lock m :: es => .Lock m :: syncOf es
  | .Unlock m :: es => .Unlock m :: syncOf es
  | .Write _ :: es => .Write [] :: syncOf es
  | _ :: es => syncOf es

/-- The state `t` is the state `s` after more effects whose locking-relevant
part is `sync`, with every variable unchanged. -/
def Adds (sync : List Effect) (s t : State) : Prop :=
  ∃ fx, t = { s with trace := s.trace ++ fx } ∧ syncOf fx = sync

/-- The locking-relevant traces `drawScreen` can add: the whole redraw, the
redraw cut short by a panic in `drawMessages`, and the redraw that hangs in
`drawMessages`. -/
def drawScreenShapes : List (List Effect) :=
  [[.Lock .screenLock, .Lock .msgLock, .Unlock .msgLock, .Lock .inputLock, .Unlock .inputLock,
      .Unlock .screenLock],
   [.Lock .screenLock, .Lock .msgLock, .Unlock .msgLock, .Unlock .screenLock],
   [.Lock .screenLock, .Lock .msgLock]]

/-- The characters of the input row as the specification reads it: "> "
followed by the typed characters, one rune each. -/
def barRunes (typed : List Int) : List Int := [62, 32] ++ typed

/-- The last `w` elements of a list (all of it when it has at most `w`). -/
def lastN {α : Type} (w : Nat) (xs : List α) : List α := xs.drop (xs.length - w)

/-- The runes `drawInput` paints for the bar, left to right (none on a panic). -/
def paintedBar (w : Int) (input : GoString) : List Int :=
  match inputBar w input with
  | .ok bar => (rangeString bar).map (fun p => p.2)
  | .error _ => []

/-- The string does not begin with a NUL byte, and its first rune is not white
space. -/
def cleanStart (s : GoString) : Bool :=
  (s.head? != some 0) && !IsSpace (DecodeRuneInString s).1
/-! ## The message log -/

theorem maxMessages_eq : maxMessages = 1000 := by
  unfold maxMessages
  rfl

theorem addMessage_messages (t : GoString) (c : tcell.Color) (s : State) :
    (addMessage t c s).messages
      = (s.messages ++ [Message.mk t c]).drop (s.messages.length + 1 - maxMessages) := by
  unfold addMessage
  simp only [State.emit, List.length_append, List.length_singleton]
  split
  · rfl
  · rename_i h
    have h0 : s.messages.length + 1 - maxMessages = 0 := by omega
    rw [h0, List.drop_zero]

theorem drop_append_singleton_drop (pre : List Message) (m : Message) (cap : Nat) (hc : 1 ≤ cap) :
    ((pre.drop (pre.length - cap)) ++ [m]).drop ((pre.drop (pre.length - cap)).length + 1 - cap)
      = (pre ++ [m]).drop ((pre ++ [m]).length - cap) := by
  simp only [List.length_drop, List.length_append, List.length_singleton]
  by_cases hl : pre.length ≤ cap
  · have h0 : pre.length - cap = 0 := by omega
    simp only [h0, List.drop_zero, Nat.sub_zero]
  · rw [show pre.length - (pre.length - cap) + 1 - cap = 1 by omega]
    rw [show pre.length + 1 - cap = (pre.length - cap) + 1 by omega]
    have h1 : 1 ≤ (List.drop (pre.length - cap) pre).length := by
      rw [List.length_drop]; omega
    have h2 : pre.length - cap + 1 ≤ pre.length := by omega
    rw [List.drop_append_of_le_length h1, List.drop_append_of_le_length h2, List.drop_drop]

theorem addMessageCalls_messages (pre calls : List Message) (s : State)
    (hs : s.messages = pre.drop (pre.length - maxMessages)) :
    (addMessageCalls calls s).messages
      = (pre ++ calls).drop ((pre ++ calls).length - maxMessages) := by
  induction calls generalizing pre s with
  | nil => simpa [addMessageCalls] using hs
  | cons m rest ih =>
    have hstep : (addMessage m.Text m.Color s).messages
        = (pre ++ [m]).drop ((pre ++ [m]).length - maxMessages) := by
      rw [addMessage_messages, hs]
      have hc : 1 ≤ maxMessages := by rw [maxMessages_eq]; omega
      exact drop_append_singleton_drop pre m maxMessages hc
    have h := ih (pre ++ [m]) (addMessage m.Text m.Color s) hstep
    rw [List.append_assoc, List.singleton_append] at h
    unfold addMessageCalls at h ⊢
    rw [List.foldl_cons]
    exact h

/-- C1: after any sequence of `addMessage` calls on an empty log, the log is
exactly the last `min(n, 1000)` appended entries in the order of the calls: it
is the call sequence with its first `n - 1000` entries (the oldest) dropped,
its length is `min(n, 1000)`, never above 1000, and the call sequence is the
dropped oldest entries followed by the log. -/
theorem addMessage_log_is_newest_thousand (s : State) (calls : List Message) :
    maxMessages = 1000
    ∧ (addMessageCalls calls { s with messages := [] }).messages
        = calls.drop (calls.length - maxMessages)
    ∧ (addMessageCalls calls { s with messages := [] }).messages.length
        = min calls.length maxMessages
    ∧ (addMessageCalls calls { s with messages := [] }).messages.length ≤ maxMessages
    ∧ calls = calls.take (calls.length - maxMessages)
        ++ (addMessageCalls calls { s with messages := [] }).messages := by
  have h : (addMessageCalls calls { s with messages := [] }).messages
      = calls.drop (calls.length - maxMessages) := by
    have := addMessageCalls_messages [] calls { s with messages := [] } (by simp)
    simpa using this
  refine ⟨maxMessages_eq, h, ?_, ?_, ?_⟩
  · rw [h, List.length_drop]; omega
  · rw [h, List.length_drop]; omega
  · rw [h, List.take_append_drop]

/-! ## The function `wrap` -/

theorem ceil_div_step (L n : Nat) (hn : 0 < n) (hL : n < L) :
    1 + (L - n + n - 1) / n = (L + n - 1) / n := by
  have h : L + n - 1 = (L - n + n - 1) + n := by omega
  rw [h, Nat.add_div_right _ hn]
  omega

theorem ceil_div_base (L n : Nat) (h0 : L ≠ 0) (hL : L ≤ n) : (L + n - 1) / n = 1 := by
  have hn : 0 < n := by omega
  apply Nat.div_eq_of_lt_le
  · omega
  · omega

/-- For a width of at least 1 the loop of `wrap` ends within `len(s) + 1`
iterations and returns `out` followed by lines `ls` with all the properties
of a hard wrap. -/
theorem wrapLoop_ok (w : Int) (hw : 1 ≤ w) :
    ∀ (fuel : Nat) (s : GoString) (out : List GoString), s.length < fuel →
      ∃ ls : List GoString, wrapLoop fuel s w out = .ok (out ++ ls)
        ∧ ls ≠ [] ∧ ls.flatten = s
        ∧ ls.length = (if s.length = 0 then 1 else (s.length + w.toNat - 1) / w.toNat)
        ∧ (∀ l ∈ ls.dropLast, l.length = w.toNat)
        ∧ (∀ l, ls.getLast? = some l → l.length ≤ w.toNat ∧ (s ≠ [] → 0 < l.length)) := by
  intro fuel
  induction fuel with
  | zero => intro s out h; omega
  | succ fuel ih =>
    intro s out hlt
    have hn : 1 ≤ w.toNat := by omega
    by_cases hgt : (s.length : Int) > w
    · have hlen : w.toNat < s.length := by omega
      have hdrop : (s.drop w.toNat).length < fuel := by
        rw [List.length_drop]; omega
      obtain ⟨ls, hrun, hne, hflat, hcount, hfull, hlast⟩ :=
        ih (s.drop w.toNat) (out ++ [s.take w.toNat]) hdrop
      refine ⟨s.take w.toNat :: ls, ?_, by simp, ?_, ?_, ?_, ?_⟩
      · rw [wrapLoop, if_pos hgt, if_neg (by omega), hrun]
        simp
      · rw [List.flatten_cons, hflat, List.take_append_drop]
      · rw [List.length_cons, hcount, List.length_drop]
        rw [if_neg (by omega), if_neg (by omega)]
        have := ceil_div_step s.length w.toNat (by omega) hlen
        omega
      · intro l hl
        obtain ⟨x, xs, rfl⟩ := List.exists_cons_of_ne_nil hne
        rw [List.dropLast_cons₂] at hl
        rcases List.mem_cons.mp hl with h | h
        · rw [h, List.length_take]; omega
        · exact hfull l h
      · intro l hl
        obtain ⟨x, xs, rfl⟩ := List.exists_cons_of_ne_nil hne
        rw [List.getLast?_cons_cons] at hl
        have := hlast l hl
        refine ⟨this.1, fun _ => this.2 ?_⟩
        intro h0
        rw [h0] at hdrop hcount
        have : (s.drop w.toNat).length = 0 := by rw [h0]; rfl
        rw [List.length_drop] at this
        omega
    · refine ⟨[s], ?_, by simp, by simp, ?_, by simp, ?_⟩
      · rw [wrapLoop, if_neg hgt]
      · rw [List.length_singleton]
        split
        · rfl
        · rename_i h0
          exact (ceil_div_base s.length w.toNat h0 (by omega)).symm
      · intro l hl
        simp only [List.getLast?_singleton, Option.some.injEq] at hl
        subst hl
        refine ⟨by omega, fun h => ?_⟩
        exact List.length_pos.mpr h

theorem wrapLoop_succ (fuel : Nat) (s : GoString) (w : Int) (out : List GoString) :
    wrapLoop (fuel + 1) s w out
      = if (s.length : Int) > w then
          if w < 0 then .error .panicked
          else wrapLoop fuel (s.drop w.toNat) w (out ++ [s.take w.toNat])
        else .ok (out ++ [s]) := rfl

/-- More fuel never changes a result the loop of `wrap` has reached. -/
theorem wrapLoop_fuel (w : Int) :
    ∀ (fuel : Nat) (s : GoString) (out : List GoString) (k : Nat),
      wrapLoop fuel s w out ≠ .error .diverged →
      wrapLoop (fuel + k) s w out = wrapLoop fuel s w out := by
  intro fuel
  induction fuel with
  | zero => intro s out k h; exact absurd rfl h
  | succ fuel ih =>
    intro s out k h
    rw [show fuel + 1 + k = (fuel + k) + 1 by omega]
    rw [wrapLoop_succ] at h
    rw [wrapLoop_succ (fuel + k), wrapLoop_succ fuel]
    by_cases hgt : (s.length : Int) > w
    · rw [if_pos hgt] at h ⊢
      rw [if_pos hgt]
      by_cases hneg : w < 0
      · rw [if_pos hneg, if_pos hneg]
      · rw [if_neg hneg] at h ⊢
        rw [if_neg hneg]
        exact ih _ _ k h
    · rw [if_neg hgt, if_neg hgt]

/-- With width 0 the loop of `wrap` never ends on a non-empty text: no amount
of fuel is enough. -/
theorem wrapLoop_zero_width (fuel : Nat) (s : GoString) (out : List GoString) (hs : s ≠ []) :
    wrapLoop fuel s 0 out = .error .diverged := by
  induction fuel generalizing out with
  | zero => rfl
  | succ fuel ih =>
    have hpos : 0 < s.length := List.length_pos.mpr hs
    rw [wrapLoop_succ, if_pos (by omega), if_neg (by omega)]
    simpa using ih (out ++ [s.take 0])

/-- The fuel `len(s) + 1` of `wrap` is adequate: `wrap` reports a loop that
never ends only when the loop ends for no amount of fuel. -/
theorem wrap_diverged_iff (s : GoString) (w : Int) :
    wrap s w = .error .diverged ↔ ∀ fuel, wrapLoop fuel s w [] = .error .diverged := by
  constructor
  · intro h fuel
    unfold wrap at h
    rcases lt_trichotomy w 0 with hw | hw | hw
    · rw [wrapLoop_succ, if_pos (by omega), if_pos hw] at h
      cases h
    · subst hw
      by_cases hs : s = []
      · subst hs
        rw [wrapLoop_succ, if_neg (by simp)] at h
        cases h
      · exact wrapLoop_zero_width fuel s [] hs
    · obtain ⟨ls, hrun, _⟩ := wrapLoop_ok w (by omega) (s.length + 1) s [] (by omega)
      rw [hrun] at h
      cases h
  · intro h
    exact h _

theorem ceil_div_bounds (L n : Nat) (hn : 0 < n) (hL : L ≠ 0) :
    n * ((L + n - 1) / n - 1) < L ∧ L ≤ n * ((L + n - 1) / n) := by
  have hdm := Nat.div_add_mod (L + n - 1) n
  have hmod := Nat.mod_lt (L + n - 1) hn
  rw [Nat.mul_sub_one]
  generalize n * ((L + n - 1) / n) = p at *
  omega

theorem ceil_div_eq_ceil (L n : Nat) (hn : 0 < n) (hL : L ≠ 0) :
    (((L + n - 1) / n : Nat) : Int) = ⌈(L : ℚ) / (n : ℚ)⌉ := by
  obtain ⟨hlo, hhi⟩ := ceil_div_bounds L n hn hL
  have hk : 1 ≤ (L + n - 1) / n := by
    rcases Nat.eq_zero_or_pos ((L + n - 1) / n) with h | h
    · rw [h] at hhi; omega
    · exact h
  generalize (L + n - 1) / n = k at *
  symm
  rw [Int.ceil_eq_iff]
  have hnq : (0 : ℚ) < (n : ℚ) := by exact_mod_cast hn
  constructor
  · rw [lt_div_iff₀ hnq]
    have : ((n * (k - 1) : Nat) : ℚ) < (L : ℚ) := by exact_mod_cast hlo
    rw [Nat.cast_mul, Nat.cast_sub hk] at this
    push_cast at this ⊢
    linarith
  · rw [div_le_iff₀ hnq]
    have : (L : ℚ) ≤ ((n * k : Nat) : ℚ) := by exact_mod_cast hhi
    push_cast at this ⊢
    linarith

theorem wrap_returns (s : GoString) (w : Int) (hw : 1 ≤ w) :
    ∃ ls : List GoString, wrap s w = .ok ls ∧ ls ≠ [] ∧ ls.flatten = s := by
  obtain ⟨ls, hrun, hne, hflat, _⟩ := wrapLoop_ok w hw (s.length + 1) s [] (by omega)
  exact ⟨ls, by simpa [wrap] using hrun, hne, hflat⟩

/-- C10: for every text `s` and width `w >= 1`, `wrap(s, w)` returns (the loop
ends within its fuel), the returned list is non-empty, and the concatenation
of the returned lines, in order, is `s` itself. -/
theorem wrap_loses_nothing (s : GoString) (w : Int) (hw : 1 ≤ w) :
    ∃ ls : List GoString, wrap s w = .ok ls ∧ ls ≠ [] ∧ ls.flatten = s := by
  obtain ⟨ls, hrun, hne, hflat, _⟩ := wrapLoop_ok w hw (s.length + 1) s [] (by omega)
  exact ⟨ls, by simpa [wrap] using hrun, hne, hflat⟩

theorem wrap_loses_nothing_witness :
    (1 : Int) ≤ 4 ∧ ∃ ls : List GoString, wrap (lit "hello world") 4 = .ok ls ∧ ls ≠ []
      ∧ ls.flatten = lit "hello world" :=
  ⟨by decide, wrap_loses_nothing (lit "hello world") 4 (by decide)⟩

/-- C5 (as the code has it): for every width `w >= 1` and every text `s` of
`L = len(s)` bytes, `wrap(s, w)` returns exactly `ceil(L / w)` lines (exactly 1
when `L = 0`), every line but the last has length exactly `w`, and the last
has length at most `w`. -/
theorem wrap_line_count (s : GoString) (w : Int) (hw : 1 ≤ w) :
    ∃ ls : List GoString, wrap s w = .ok ls
      ∧ (s.length = 0 → ls.length = 1)
      ∧ (s.length ≠ 0 → (ls.length : Int) = ⌈(s.length : ℚ) / (w : ℚ)⌉)
      ∧ (∀ l ∈ ls.dropLast, (l.length : Int) = w)
      ∧ (∀ l, ls.getLast? = some l → (l.length : Int) ≤ w) := by
  obtain ⟨ls, hrun, _, _, hcount, hfull, hlast⟩ :=
    wrapLoop_ok w hw (s.length + 1) s [] (by omega)
  have hwn : ((w.toNat : Nat) : Int) = w := Int.toNat_of_nonneg (by omega)
  refine ⟨ls, by simpa [wrap] using hrun, ?_, ?_, ?_, ?_⟩
  · intro h0
    rw [hcount, if_pos h0]
  · intro h0
    rw [hcount, if_neg h0, ceil_div_eq_ceil s.length w.toNat (by omega) h0]
    have : ((w.toNat : Nat) : ℚ) = (w : ℚ) := by exact_mod_cast hwn
    rw [this]
  · intro l hl
    rw [hfull l hl, hwn]
  · intro l hl
    have := (hlast l hl).1
    omega

theorem wrap_line_count_witness :
    (1 : Int) ≤ 4 ∧ ∃ ls : List GoString, wrap (lit "hello world") 4 = .ok ls
      ∧ ((lit "hello world").length = 0 → ls.length = 1)
      ∧ ((lit "hello world").length ≠ 0
          → (ls.length : Int) = ⌈((lit "hello world").length : ℚ) / ((4 : Int) : ℚ)⌉)
      ∧ (∀ l ∈ ls.dropLast, (l.length : Int) = 4)
      ∧ (∀ l, ls.getLast? = some l → (l.length : Int) ≤ 4) :=
  ⟨by decide, wrap_line_count (lit "hello world") 4 (by decide)⟩

/-- C5 as stated fails at width 0: on the one-byte text `"a"` the loop of
`wrap` appends the empty slice `s[:0]` for ever and never returns, for any
amount of fuel, so no line count is produced. -/
theorem wrap_width_zero_never_returns :
    wrap (lit "a") 0 = .error .diverged
      ∧ (∀ fuel, wrapLoop fuel (lit "a") 0 [] = .error .diverged) :=
  ⟨(wrap_diverged_iff _ _).mpr (fun fuel => wrapLoop_zero_width fuel _ _ (by decide)),
   fun fuel => wrapLoop_zero_width fuel _ _ (by decide)⟩

/-! ## Traces: what each function adds -/

theorem foldl_emit {α : Type} (f : α → Effect) (xs : List α) (s : State) :
    xs.foldl (fun s x => s.emit (f x)) s = { s with trace := s.trace ++ xs.map f } := by
  induction xs generalizing s with
  | nil => simp
  | cons x xs ih =>
    rw [List.foldl_cons, ih]
    simp [State.emit]

theorem printLine_eq (x y : Int) (text : GoString) (color : tcell.Color) (s : State) :
    printLine x y text color s
      = { s with trace := s.trace ++ printLineEffects x y text color } := by
  unfold printLine printLineEffects
  exact foldl_emit _ _ s

theorem syncOf_append (a b : List Effect) : syncOf (a ++ b) = syncOf a ++ syncOf b := by
  induction a with
  | nil => rfl
  | cons e a ih => cases e <;> simp [syncOf, ih]

theorem syncOf_map_setContent {α : Type} (xs : List α) (fx fy fr : α → Int)
    (st : α → tcell.Style) :
    syncOf (xs.map (fun p => Effect.SetContent (fx p) (fy p) (fr p) (st p))) = [] := by
  induction xs with
  | nil => rfl
  | cons x xs ih => simpa [syncOf] using ih

theorem syncOf_printLineEffects (x y : Int) (text : GoString) (color : tcell.Color) :
    syncOf (printLineEffects x y text color) = [] := by
  unfold printLineEffects
  exact syncOf_map_setContent _ _ _ _ _

theorem syncOf_paintRows (y : Int) (rows : List (GoString × tcell.Color)) :
    syncOf (paintRows y rows) = [] := by
  induction rows generalizing y with
  | nil => rfl
  | cons r rows ih =>
    obtain ⟨l, c⟩ := r
    rw [paintRows, syncOf_append, syncOf_printLineEffects, ih]
    rfl

theorem paintRows_append (y : Int) (a b : List (GoString × tcell.Color)) :
    paintRows y (a ++ b) = paintRows y a ++ paintRows (y + (a.length : Int)) b := by
  induction a generalizing y with
  | nil => simp [paintRows]
  | cons r a ih =>
    obtain ⟨l, c⟩ := r
    rw [List.cons_append, paintRows, paintRows, ih, List.append_assoc, List.length_cons]
    congr 3
    push_cast
    ring

theorem paintRows_rows (y : Int) (rows : List (GoString × tcell.Color)) :
    ∀ e ∈ paintRows y rows, ∃ x row r st, e = Effect.SetContent x row r st
      ∧ y ≤ row ∧ row < y + (rows.length : Int) := by
  induction rows generalizing y with
  | nil => intro e he; simp [paintRows] at he
  | cons r rows ih =>
    obtain ⟨l, c⟩ := r
    intro e he
    rw [paintRows, List.mem_append] at he
    rcases he with he | he
    · unfold printLineEffects at he
      obtain ⟨p, _, rfl⟩ := List.mem_map.mp he
      exact ⟨_, _, _, _, rfl, le_refl _, by rw [List.length_cons]; push_cast; omega⟩
    · obtain ⟨x, row, r, st, rfl, h1, h2⟩ := ih (y + 1) e he
      exact ⟨x, row, r, st, rfl, by omega, by rw [List.length_cons]; push_cast; omega⟩

theorem state_trace_append_nil (s : State) : { s with trace := s.trace ++ [] } = s := by
  cases s
  simp

theorem wrapInt_eq (x : Int) (h1 : -9223372036854775808 ≤ x) (h2 : x < 9223372036854775808) :
    wrapInt x = x := by
  unfold wrapInt
  omega

/-- The inner loop of `drawMessages` with `k` lines still to skip, as long as
the counters stay in the range of an `int`: it skips the first `k` lines and
prints the others on consecutive rows from `y`. -/
theorem paintLines_eq (c : tcell.Color) :
    ∀ (ls : List GoString) (k : Nat) (line y : Int) (s : State),
      -9223372036854775808 ≤ line → line + (k : Int) < 9223372036854775808 →
      -9223372036854775808 ≤ y → y + ((ls.drop k).length : Int) < 9223372036854775808 →
      paintLines (line + (k : Int)) c ls (line, y, s)
        = (line + (min k ls.length : Nat), y + ((ls.drop k).length : Int),
            { s with trace := s.trace ++ paintRows y ((ls.drop k).map (fun l => (l, c))) }) := by
  intro ls
  induction ls with
  | nil =>
    intro k line y s _ _ _ _
    simp [paintLines, paintRows]
  | cons l ls ih =>
    intro k line y s hl hk hy hyk
    cases k with
    | zero =>
      simp only [List.drop_zero, List.length_cons, Nat.cast_add, Nat.cast_one] at hyk
      have hw : wrapInt (y + 1) = y + 1 := wrapInt_eq _ (by omega) (by omega)
      have h := ih 0 line (y + 1) (printLine 0 y l c s) hl hk (by omega)
        (by simp only [List.drop_zero]; omega)
      simp only [Nat.cast_zero, add_zero] at h ⊢
      rw [paintLines, if_neg (lt_irrefl _), hw, h, printLine_eq]
      simp only [List.drop_zero, List.map_cons, paintRows, List.length_cons, Nat.zero_min,
        Nat.cast_zero, add_zero, List.append_assoc, Nat.cast_add, Nat.cast_one]
      congr 2
      ring
    | succ k =>
      have hk2 : line + 1 + (k : Int) < 9223372036854775808 := by push_cast at hk; omega
      have hw : wrapInt (line + 1) = line + 1 := wrapInt_eq _ (by omega) (by omega)
      have h := ih k (line + 1) y s (by omega) hk2 hy (by simpa using hyk)
      rw [show line + 1 + (k : Int) = line + ((k + 1 : Nat) : Int) by push_cast; ring] at h
      rw [paintLines, if_pos (by push_cast; omega), hw, h]
      simp only [List.drop_succ_cons, List.length_cons, Nat.add_min_add_right]
      congr 1
      push_cast
      ring

/-- For a width of at least 1 `wrap` returns the lines `wrapped` names. -/
theorem wrap_eq_wrapped (text : GoString) (w : Int) (hw : 1 ≤ w) :
    wrap text w = .ok (wrapped text w) := by
  obtain ⟨ls, hrun, _⟩ := wrap_returns text w hw
  unfold wrapped
  rw [hrun]

theorem wrappedLines_cons (w : Int) (m : Message) (ms : List Message) :
    wrappedLines w (m :: ms)
      = (wrapped m.Text w).map (fun l => (l, m.Color)) ++ wrappedLines w ms := by
  simp [wrappedLines]

theorem totalLines_eq (w : Int) (hw : 1 ≤ w) :
    ∀ (ms : List Message) (total : Int),
      -9223372036854775808 ≤ total →
      total + ((wrappedLines w ms).length : Int) < 9223372036854775808 →
      totalLines w ms total = .ok (total + ((wrappedLines w ms).length : Int)) := by
  intro ms
  induction ms with
  | nil => intro total _ _; simp [totalLines, wrappedLines]
  | cons m ms ih =>
    intro total h1 h2
    rw [wrappedLines_cons, List.length_append, List.length_map] at h2 ⊢
    push_cast at h2
    have hwr : wrapInt (total + ((wrapped m.Text w).length : Int))
        = total + ((wrapped m.Text w).length : Int) := wrapInt_eq _ (by omega) (by omega)
    rw [totalLines, wrap_eq_wrapped m.Text w hw]
    simp only
    rw [hwr, ih _ (by omega) (by omega)]
    congr 1
    push_cast
    ring

/-- The second loop of `drawMessages` with `k` lines still to skip, as long as
the counters stay in the range of an `int`: over all the messages it skips the
first `k` wrapped lines and prints the others on consecutive rows from `y`. -/
theorem paintMessages_eq (w : Int) (hw : 1 ≤ w) :
    ∀ (ms : List Message) (k : Nat) (line y : Int) (s : State),
      -9223372036854775808 ≤ line → line + (k : Int) < 9223372036854775808 →
      -9223372036854775808 ≤ y →
      y + (((wrappedLines w ms).drop k).length : Int) < 9223372036854775808 →
      paintMessages w (line + (k : Int)) ms (line, y, s)
        = .ok (line + (min k (wrappedLines w ms).length : Nat),
            y + (((wrappedLines w ms).drop k).length : Int),
            { s with trace := s.trace ++ paintRows y ((wrappedLines w ms).drop k) }) := by
  intro ms
  induction ms with
  | nil =>
    intro k line y s _ _ _ _
    simp [paintMessages, wrappedLines, paintRows]
  | cons m ms ih =>
    intro k line y s hl hk hy hyk
    rw [wrappedLines_cons, List.drop_append_eq_append_drop, List.length_append,
      List.length_map, List.length_drop, List.length_drop, List.length_map] at hyk
    push_cast at hyk
    rw [paintMessages, wrap_eq_wrapped m.Text w hw]
    simp only
    rw [paintLines_eq m.Color _ _ _ _ _ hl hk hy (by rw [List.length_drop]; omega)]
    have hskip : line + (k : Int)
        = (line + ((min k (wrapped m.Text w).length : Nat) : Int))
          + ((k - (wrapped m.Text w).length : Nat) : Int) := by
      omega
    rw [hskip, ih]
    rotate_left
    · omega
    · omega
    · rw [List.length_drop]; omega
    · rw [List.length_drop, List.length_drop]; omega
    rw [wrappedLines_cons, List.drop_append_eq_append_drop, List.length_map,
      List.map_drop, paintRows_append]
    simp only [List.length_append, List.length_drop, List.length_map, List.append_assoc]
    generalize (wrapped m.Text w).length = a
    generalize (wrappedLines w ms).length = b
    have e1 : line + ((min k a : Nat) : Int) + ((min (k - a) b : Nat) : Int)
        = line + ((min k (a + b) : Nat) : Int) := by omega
    have e2 : y + ((a - k : Nat) : Int) + ((b - (k - a) : Nat) : Int)
        = y + ((a - k + (b - (k - a)) : Nat) : Int) := by omega
    rw [e1, e2]

/-- For a width of at least 1 and a height `h` for which neither `h - 2` nor
`len(lines) - (h - 2)` leaves the range of an `int`, `drawMessages` returns,
having locked the message log, painted the last `h - 2` wrapped lines (all of
them when there are fewer) from row 1 down, and unlocked. -/
theorem drawMessages_eq (s : State) (w h : Int) (hw : 1 ≤ w)
    (hlo : -9223372036854775808 + 2 ≤ h) (hhi : h < 9223372036854775808)
    (hlen : ((wrappedLines w s.messages).length : Int) < 9223372036854775808)
    (hskip : ((wrappedLines w s.messages).length : Int) - (h - 2) < 9223372036854775808) :
    drawMessages w h s
      = .ok { s with trace := s.trace ++ [Effect.Lock .msgLock]
          ++ paintRows 1 ((wrappedLines w s.messages).drop
              ((wrappedLines w s.messages).length - (h - 2).toNat))
          ++ [Effect.Unlock .msgLock] } := by
  unfold drawMessages
  simp only [State.emit]
  rw [totalLines_eq w hw _ _ (by omega) (by omega)]
  simp only [zero_add]
  rw [wrapInt_eq (h - 2) (by omega) (by omega)]
  generalize hL : wrappedLines w s.messages = L at hlen hskip
  have hk : ∃ k : Nat,
      (if (L.length : Int) > h - 2 then wrapInt ((L.length : Int) - (h - 2)) else 0)
          = (0 : Int) + (k : Int)
        ∧ L.drop k = L.drop (L.length - (h - 2).toNat)
        ∧ (k : Int) < 9223372036854775808 := by
    by_cases hgt : (L.length : Int) > h - 2
    · refine ⟨((L.length : Int) - (h - 2)).toNat, ?_, ?_, by omega⟩
      · rw [if_pos hgt, wrapInt_eq _ (by omega) (by omega)]; omega
      · by_cases hneg : h - 2 < 0
        · rw [List.drop_eq_nil_of_le (by omega), List.drop_eq_nil_of_le (by omega)]
        · congr 1; omega
    · refine ⟨0, ?_, ?_, by omega⟩
      · rw [if_neg hgt]; rfl
      · congr 1; omega
  obtain ⟨k, hskipk, hdrop, hkB⟩ := hk
  rw [hskipk, paintMessages_eq w hw _ _ _ _ _ (by omega) (by omega) (by omega)
    (by rw [hL, hdrop, List.length_drop]; omega)]
  simp only [hL, hdrop, List.append_assoc]

/-- C8 (as the code has it): for every message log, width `w >= 1` and height
`h` (an `int`) for which neither `h - 2` nor `len(lines) - (h - 2)` leaves the
64-bit range of Go's `int` (every `h >= 0` qualifies), with `lines` the
concatenation in log order of `wrap(m.Text, w)` and `v = max(h - 2, 0)`,
`drawMessages` returns having painted exactly the last `min(len(lines), v)`
elements of `lines`, in order, on consecutive rows from row 1, each in the
colour of its message (and nothing else between taking and releasing the
message-log lock); every cell it paints lies on a row from 1 to `h - 2`, so
never on the header row 0 nor on the input row `h - 1`. -/
theorem drawMessages_paints_tail (s : State) (w h : Int) (hw : 1 ≤ w)
    (hlo : -9223372036854775808 + 2 ≤ h) (hhi : h < 9223372036854775808)
    (hlen : ((wrappedLines w s.messages).length : Int) < 9223372036854775808)
    (hskip : ((wrappedLines w s.messages).length : Int) - (h - 2) < 9223372036854775808) :
    (∀ m ∈ s.messages, wrap m.Text w = .ok (wrapped m.Text w))
    ∧ drawMessages w h s
        = .ok { s with trace := s.trace ++ [Effect.Lock .msgLock]
            ++ paintRows 1 ((wrappedLines w s.messages).drop
                ((wrappedLines w s.messages).length
                  - min (wrappedLines w s.messages).length (max (h - 2) 0).toNat))
            ++ [Effect.Unlock .msgLock] }
    ∧ (∀ e ∈ paintRows 1 ((wrappedLines w s.messages).drop
                ((wrappedLines w s.messages).length
                  - min (wrappedLines w s.messages).length (max (h - 2) 0).toNat)),
        ∃ x row r st, e = Effect.SetContent x row r st
          ∧ 1 ≤ row ∧ row ≤ h - 2 ∧ row ≠ 0 ∧ row ≠ h - 1) := by
  have hidx : (wrappedLines w s.messages).length
        - min (wrappedLines w s.messages).length (max (h - 2) 0).toNat
      = (wrappedLines w s.messages).length - (h - 2).toNat := by
    have : (max (h - 2) 0).toNat = (h - 2).toNat := by
      rcases le_total (h - 2) 0 with hle | hle
      · rw [max_eq_right hle]; omega
      · rw [max_eq_left hle]
    rw [this]
    omega
  refine ⟨fun m _ => wrap_eq_wrapped m.Text w hw, ?_, ?_⟩
  · rw [hidx]
    exact drawMessages_eq s w h hw hlo hhi hlen hskip
  · rw [hidx]
    intro e he
    obtain ⟨x, row, r, st, rfl, h1, h2⟩ := paintRows_rows 1 _ e he
    refine ⟨x, row, r, st, rfl, h1, ?_, by omega, ?_⟩
    · rw [List.length_drop] at h2; omega
    · rw [List.length_drop] at h2; omega

theorem drawMessages_paints_tail_witness :
    (1 : Int) ≤ 4
    ∧ drawMessages 4 4
        ⟨lit "A", [⟨lit "hello world", .ColorYellow⟩], [], true, 5000, (4, 4), []⟩
      = .ok ⟨lit "A", [⟨lit "hello world", .ColorYellow⟩], [], true, 5000, (4, 4),
          [Effect.Lock .msgLock,
           Effect.SetContent 0 1 111 ⟨some .ColorYellow, none⟩,
           Effect.SetContent 1 1 32 ⟨some .ColorYellow, none⟩,
           Effect.SetContent 2 1 119 ⟨some .ColorYellow, none⟩,
           Effect.SetContent 3 1 111 ⟨some .ColorYellow, none⟩,
           Effect.SetContent 0 2 114 ⟨some .ColorYellow, none⟩,
           Effect.SetContent 1 2 108 ⟨some .ColorYellow, none⟩,
           Effect.SetContent 2 2 100 ⟨some .ColorYellow, none⟩,
           Effect.Unlock .msgLock]⟩ := by
  refine ⟨by decide, ?_⟩
  have h := (drawMessages_paints_tail
    ⟨lit "A", [⟨lit "hello world", .ColorYellow⟩], [], true, 5000, (4, 4), []⟩ 4 4
    (by decide) (by decide) (by decide) (by decide) (by decide)).2.1
  rw [h]
  decide

/-- C8 as stated fails at the least `int`: with `h = -2^63` the subtraction
`h - 2` wraps around to `2^63 - 2`, `total` does not exceed it, `skip` stays 0
and the one line of the log is painted on row 1, although
`v = max(h - 2, 0) = 0` asks for no line at all. -/
theorem drawMessages_height_wraps :
    drawMessages 4 (-9223372036854775808)
        ⟨lit "A", [⟨lit "hi", .ColorYellow⟩], [], true, 5000, (4, -9223372036854775808), []⟩
      = .ok ⟨lit "A", [⟨lit "hi", .ColorYellow⟩], [], true, 5000, (4, -9223372036854775808),
          [Effect.Lock .msgLock,
           Effect.SetContent 0 1 104 ⟨some .ColorYellow, none⟩,
           Effect.SetContent 1 1 105 ⟨some .ColorYellow, none⟩,
           Effect.Unlock .msgLock]⟩
    ∧ wrappedLines 4 [⟨lit "hi", .ColorYellow⟩] = [(lit "hi", .ColorYellow)]
    ∧ min (wrappedLines 4 [⟨lit "hi", .ColorYellow⟩]).length
        (max ((-9223372036854775808 : Int) - 2) 0).toNat = 0 := by
  decide

/-! ## What the drawing functions add to the trace, for every screen size -/

theorem adds_refl (s : State) : Adds [] s s :=
  ⟨[], (state_trace_append_nil s).symm, rfl⟩

theorem adds_trans {X Y : List Effect} {s t u : State} (h1 : Adds X s t) (h2 : Adds Y t u) :
    Adds (X ++ Y) s u := by
  obtain ⟨fx, rfl, hx⟩ := h1
  obtain ⟨fy, rfl, hy⟩ := h2
  exact ⟨fx ++ fy, by simp, by rw [syncOf_append, hx, hy]⟩

theorem adds_emit (s : State) (e : Effect) : Adds (syncOf [e]) s (s.emit e) :=
  ⟨[e], rfl, rfl⟩

theorem adds_messages {X : List Effect} {s t : State} (h : Adds X s t) :
    t.messages = s.messages := by
  obtain ⟨fx, rfl, _⟩ := h
  rfl

theorem adds_input {X : List Effect} {s t : State} (h : Adds X s t) : t.input = s.input := by
  obtain ⟨fx, rfl, _⟩ := h
  rfl

theorem adds_printLine (x y : Int) (text : GoString) (color : tcell.Color) (s : State) :
    Adds [] s (printLine x y text color s) :=
  ⟨_, printLine_eq x y text color s, syncOf_printLineEffects x y text color⟩

theorem adds_foldl_emit {α : Type} (f : α → Effect) (xs : List α) (s : State)
    (h : syncOf (xs.map f) = []) :
    Adds [] s (xs.foldl (fun s x => s.emit (f x)) s) :=
  ⟨xs.map f, foldl_emit f xs s, h⟩

theorem adds_drawHeader (w : Int) (s : State) : Adds [] s (drawHeader w s) := by
  unfold drawHeader
  simp only
  have h1 := adds_foldl_emit
    (fun x : Nat => Effect.SetContent (x : Int) 0 32
      ((tcell.StyleDefault.Foreground .ColorBlack).Background .ColorDodgerBlue))
    (List.range w.toNat) s (syncOf_map_setContent _ _ _ _ _)
  have h2 := adds_foldl_emit
    (fun p : Nat × Int => Effect.SetContent
      (wrapInt (Int.tdiv (wrapInt (w - ((lit " LAN UDP CHAT ").length : Int))) 2 + (p.1 : Int)))
      0 p.2
      ((tcell.StyleDefault.Foreground .ColorBlack).Background .ColorDodgerBlue))
    (rangeString (lit " LAN UDP CHAT "))
    ((List.range w.toNat).foldl (fun s (x : Nat) => s.emit (Effect.SetContent (x : Int) 0 32
      ((tcell.StyleDefault.Foreground .ColorBlack).Background .ColorDodgerBlue))) s)
    (syncOf_map_setContent _ _ _ _ _)
  exact adds_trans h1 h2

theorem adds_paintLines (skip : Int) (c : tcell.Color) :
    ∀ (ls : List GoString) (line y : Int) (s : State),
      Adds [] s (paintLines skip c ls (line, y, s)).2.2 := by
  intro ls
  induction ls with
  | nil => intro line y s; exact adds_refl s
  | cons l ls ih =>
    intro line y s
    rw [paintLines]
    split
    · exact ih _ _ _
    · exact adds_trans (adds_printLine 0 y l c s) (ih _ _ _)

theorem adds_paintMessages (w skip : Int) :
    ∀ (ms : List Message) (acc : Int × Int × State),
      match paintMessages w skip ms acc with
      | .ok r => Adds [] acc.2.2 r.2.2
      | .error r => Adds [] acc.2.2 r.2 := by
  intro ms
  induction ms with
  | nil => intro acc; exact adds_refl _
  | cons m ms ih =>
    intro acc
    rw [paintMessages]
    cases hwrap : wrap m.Text w with
    | error f => exact adds_refl _
    | ok ls =>
      simp only
      have h1 := adds_paintLines skip m.Color ls acc.1 acc.2.1 acc.2.2
      have h2 := ih (paintLines skip m.Color ls acc)
      cases hp : paintMessages w skip ms (paintLines skip m.Color ls acc) with
      | ok r => rw [hp] at h2; exact adds_trans h1 h2
      | error r => rw [hp] at h2; exact adds_trans h1 h2

/-- Whatever the screen size, `drawMessages` returns or panics having locked
and unlocked the message log, or hangs in `wrap` with the lock held; nothing
else it does touches a lock, the connection or a variable. -/
theorem drawMessages_cases (w h : Int) (s : State) :
    (∃ t, drawMessages w h s = .ok t
        ∧ Adds [Effect.Lock .msgLock, Effect.Unlock .msgLock] s t)
    ∨ (∃ t, drawMessages w h s = .faulted .panicked t
        ∧ Adds [Effect.Lock .msgLock, Effect.Unlock .msgLock] s t)
    ∨ (∃ t, drawMessages w h s = .faulted .diverged t ∧ Adds [Effect.Lock .msgLock] s t) := by
  have hlock : Adds [Effect.Lock .msgLock] s (s.emit (.Lock .msgLock)) := adds_emit s _
  unfold drawMessages
  simp only
  cases htot : totalLines w (s.emit (.Lock .msgLock)).messages 0 with
  | error f =>
    cases f with
    | panicked =>
      exact Or.inr (Or.inl ⟨_, rfl, adds_trans hlock (adds_emit _ (.Unlock .msgLock))⟩)
    | diverged => exact Or.inr (Or.inr ⟨_, rfl, hlock⟩)
  | ok total =>
    simp only
    have hp := adds_paintMessages w (if total > wrapInt (h - 2) then wrapInt (total - wrapInt (h - 2)) else 0)
      (s.emit (.Lock .msgLock)).messages (0, 1, s.emit (.Lock .msgLock))
    cases hpm : paintMessages w (if total > wrapInt (h - 2) then wrapInt (total - wrapInt (h - 2)) else 0)
        (s.emit (.Lock .msgLock)).messages (0, 1, s.emit (.Lock .msgLock)) with
    | error r =>
      rw [hpm] at hp
      obtain ⟨f, t⟩ := r
      cases f with
      | panicked =>
        exact Or.inr (Or.inl ⟨_, rfl,
          adds_trans (adds_trans hlock hp) (adds_emit _ (.Unlock .msgLock))⟩)
      | diverged => exact Or.inr (Or.inr ⟨_, rfl, adds_trans hlock hp⟩)
    | ok r =>
      rw [hpm] at hp
      obtain ⟨line, y, t⟩ := r
      exact Or.inl ⟨_, rfl, adds_trans (adds_trans hlock hp) (adds_emit _ (.Unlock .msgLock))⟩

/-- Whatever the screen size, `drawInput` returns or panics having locked and
unlocked the input buffer. -/
theorem drawInput_cases (w h : Int) (s : State) :
    (∃ t, drawInput w h s = .ok t
        ∧ Adds [Effect.Lock .inputLock, Effect.Unlock .inputLock] s t)
    ∨ (∃ t, drawInput w h s = .faulted .panicked t
        ∧ Adds [Effect.Lock .inputLock, Effect.Unlock .inputLock] s t) := by
  have hlock : Adds [Effect.Lock .inputLock] s (s.emit (.Lock .inputLock)) := adds_emit s _
  unfold drawInput
  simp only
  cases hbar : inputBar w (s.emit (.Lock .inputLock)).input with
  | error f =>
    have hf : f = .panicked := by
      unfold inputBar at hbar
      simp only at hbar
      split at hbar
      · split at hbar
        · cases hbar; rfl
        · cases hbar
      · cases hbar
    subst hf
    exact Or.inr ⟨_, rfl, adds_trans hlock (adds_emit _ (.Unlock .inputLock))⟩
  | ok bar =>
    refine Or.inl ⟨_, rfl, ?_⟩
    have h1 := adds_foldl_emit
      (fun x : Nat => Effect.SetContent (x : Int) (wrapInt (h - 1)) 32
        (tcell.StyleDefault.Foreground .ColorAqua))
      (List.range w.toNat) (s.emit (.Lock .inputLock)) (syncOf_map_setContent _ _ _ _ _)
    have h2 := adds_foldl_emit
      (fun p : Nat × Int => Effect.SetContent (p.1 : Int) (wrapInt (h - 1)) p.2
        (tcell.StyleDefault.Foreground .ColorAqua))
      (rangeString bar)
      ((List.range w.toNat).foldl (fun s (x : Nat) => s.emit (Effect.SetContent (x : Int) (wrapInt (h - 1)) 32
        (tcell.StyleDefault.Foreground .ColorAqua))) (s.emit (.Lock .inputLock)))
      (syncOf_map_setContent _ _ _ _ _)
    exact adds_trans (adds_trans hlock (adds_trans h1 h2)) (adds_emit _ (.Unlock .inputLock))

/-- Whatever the state, `drawScreen` changes no variable and its locking is
one of the three shapes of `drawScreenShapes`. -/
theorem drawScreen_cases (s : State) :
    ∃ X ∈ drawScreenShapes, Adds X s (drawScreen s).state := by
  have h0 : Adds [Effect.Lock .screenLock] s
      (drawHeader ((s.emit (.Lock .screenLock)).emit .Clear).size.1
        ((s.emit (.Lock .screenLock)).emit .Clear)) :=
    adds_trans (adds_trans (adds_emit s (.Lock .screenLock)) (adds_emit _ .Clear))
      (adds_drawHeader _ _)
  unfold drawScreen
  simp only
  generalize drawHeader ((s.emit (.Lock .screenLock)).emit .Clear).size.1
    ((s.emit (.Lock .screenLock)).emit .Clear) = s1 at h0
  generalize ((s.emit (.Lock .screenLock)).emit .Clear).size.1 = w
  generalize ((s.emit (.Lock .screenLock)).emit .Clear).size.2 = h
  rcases drawMessages_cases w h s1 with ⟨t, ht, hadd⟩ | ⟨t, ht, hadd⟩ | ⟨t, ht, hadd⟩
  · rw [ht]
    simp only
    rcases drawInput_cases w h t with ⟨u, hu, hadd2⟩ | ⟨u, hu, hadd2⟩
    · rw [hu]
      refine ⟨_, List.mem_cons_self _ _, ?_⟩
      exact adds_trans (adds_trans (adds_trans (adds_trans h0 hadd) hadd2) (adds_emit _ .Show))
        (adds_emit _ (.Unlock .screenLock))
    · rw [hu]
      refine ⟨_, List.mem_cons_self _ _, ?_⟩
      exact adds_trans (adds_trans (adds_trans h0 hadd) hadd2) (adds_emit _ (.Unlock .screenLock))
  · rw [ht]
    refine ⟨_, List.mem_cons_of_mem _ (List.mem_cons_self _ _), ?_⟩
    exact adds_trans (adds_trans h0 hadd) (adds_emit _ (.Unlock .screenLock))
  · rw [ht]
    refine ⟨_, List.mem_cons_of_mem _ (List.mem_cons_of_mem _ (List.mem_cons_self _ _)), ?_⟩
    exact adds_trans h0 hadd

/-! ## What the state-changing functions do -/

theorem addMessage_eq (t : GoString) (c : tcell.Color) (s : State) :
    addMessage t c s
      = { s with
          messages := (s.messages ++ [Message.mk t c]).drop (s.messages.length + 1 - maxMessages)
          trace := s.trace ++ [Effect.Lock .msgLock, Effect.Unlock .msgLock] } := by
  have hm := addMessage_messages t c s
  unfold addMessage at hm ⊢
  simp only [State.emit] at hm ⊢
  rw [hm]
  simp

theorem drawScreen_messages (s : State) : (drawScreen s).state.messages = s.messages := by
  obtain ⟨X, _, h⟩ := drawScreen_cases s
  exact adds_messages h

theorem drawScreen_input (s : State) : (drawScreen s).state.input = s.input := by
  obtain ⟨X, _, h⟩ := drawScreen_cases s
  exact adds_input h

/-- The bytes of `string(r)` for a rune other than 0 are never NUL. -/
theorem encodeRune_no_nul (r : Int) (hr : r ≠ 0) : 0 ∉ encodeRune r := by
  unfold encodeRune
  simp only
  split_ifs with h1 h2 h3 h4 h5
  · decide
  · simp only [List.mem_singleton]
    omega
  · simp only [List.mem_cons, List.mem_singleton, List.not_mem_nil, or_false]
    omega
  · decide
  · simp only [List.mem_cons, List.mem_singleton, List.not_mem_nil, or_false]
    omega
  · simp only [List.mem_cons, List.mem_singleton, List.not_mem_nil, or_false]
    omega

/-! ## The receive loop -/

/-- C2: for every captured UDP packet and every state (so any
`localSrcPort`), one iteration of the receive loop leaves the state, and so
the message log, unchanged when the packet's source port equals
`localSrcPort`; when the port differs and the payload, trimmed of NUL padding
and surrounding white space, is non-empty, the log afterwards is the old log
with exactly one entry appended, whose text is the trimmed payload and whose
colour is yellow (with the oldest entries beyond `maxMessages` dropped, none
when the log held fewer than `maxMessages` entries). -/
theorem sniffLoop_filters_own_port (s : State) (udp : UDP) :
    (udp.SrcPort = s.localSrcPort → sniffLoopStep ⟨some udp⟩ s = .ok s)
    ∧ (udp.SrcPort ≠ s.localSrcPort → TrimSpace (trimNul udp.Payload) ≠ [] →
        (sniffLoopStep ⟨some udp⟩ s).state.messages
            = (s.messages ++ [Message.mk (TrimSpace (trimNul udp.Payload)) .ColorYellow]).drop
                (s.messages.length + 1 - maxMessages)
          ∧ (s.messages.length < maxMessages →
              (sniffLoopStep ⟨some udp⟩ s).state.messages
                = s.messages ++ [Message.mk (TrimSpace (trimNul udp.Payload)) .ColorYellow])) := by
  constructor
  · intro hport
    simp [sniffLoopStep, hport]
  · intro hport hraw
    have hmsg : (sniffLoopStep ⟨some udp⟩ s).state.messages
        = (s.messages ++ [Message.mk (TrimSpace (trimNul udp.Payload)) .ColorYellow]).drop
            (s.messages.length + 1 - maxMessages) := by
      simp only [sniffLoopStep, if_neg hport, if_neg hraw]
      rw [drawScreen_messages, addMessage_messages]
    refine ⟨hmsg, fun hlt => ?_⟩
    rw [hmsg, show s.messages.length + 1 - maxMessages = 0 by omega, List.drop_zero]

theorem sniffLoop_filters_own_port_witness :
    sniffLoopStep ⟨some ⟨5000, lit "B: hi"⟩⟩ ⟨lit "A", [], [], true, 5000, (20, 5), []⟩
        = .ok ⟨lit "A", [], [], true, 5000, (20, 5), []⟩
    ∧ (sniffLoopStep ⟨some ⟨4000, [0, 32] ++ lit "B: hi" ++ [10, 0]⟩⟩
          ⟨lit "A", [], [], true, 5000, (20, 5), []⟩).state.messages
        = [Message.mk (lit "B: hi") .ColorYellow] := by
  have h := sniffLoop_filters_own_port ⟨lit "A", [], [], true, 5000, (20, 5), []⟩
  refine ⟨(h ⟨5000, lit "B: hi"⟩).1 rfl, ?_⟩
  have h2 := ((h ⟨4000, [0, 32] ++ lit "B: hi" ++ [10, 0]⟩).2 (by decide) (by decide)).2
    (by rw [maxMessages_eq]; decide)
  rw [h2]
  decide

/-! ## Sending and the key events -/

/-- What the Backspace keys do to the buffer, whatever it holds: the last
byte is removed (nothing when the buffer is empty). -/
theorem backspace_drops_last_byte (s : State) (rune : Int) (writeErr : Option GoString) :
    (eventLoopStep (.EventKey .KeyBackspace rune) writeErr s).state.input = s.input.dropLast
    ∧ (eventLoopStep (.EventKey .KeyBackspace2 rune) writeErr s).state.input
        = s.input.dropLast := by
  have h : ∀ t : State,
      (if t.input.length > 0 then { t with input := t.input.take (t.input.length - 1) }
        else t).input = t.input.dropLast := by
    intro t
    split
    · rw [List.dropLast_eq_take]
    · rename_i h0
      have : t.input = [] := List.length_eq_zero.mp (by omega)
      rw [this]
      rfl
  constructor
  · simp only [eventLoopStep, unlockAndDraw]
    rw [drawScreen_input]
    exact h (s.emit (.Lock .inputLock))
  · simp only [eventLoopStep, unlockAndDraw]
    rw [drawScreen_input]
    exact h (s.emit (.Lock .inputLock))

/-- What a character key does to the buffer: the UTF-8 encoding of its rune is
appended (nothing for the rune 0). -/
theorem key_appends_encoding (s : State) (rune : Int) (writeErr : Option GoString) :
    (eventLoopStep (.EventKey .KeyOther rune) writeErr s).state.input
      = if rune ≠ 0 then s.input ++ encodeRune rune else s.input := by
  simp only [eventLoopStep, unlockAndDraw]
  rw [drawScreen_input]
  split <;> rfl

theorem handleCmd_input (cmd : GoString) (s : State) :
    (handleCmd cmd s).state.input = s.input := by
  unfold handleCmd
  split_ifs <;> simp [Outcome.state, State.emit, addMessage_eq]

/-- No iteration of the event loop puts a NUL byte into the input buffer. -/
theorem eventLoopStep_no_nul (ev : tcell.Event) (writeErr : Option GoString) (s : State)
    (h : 0 ∉ s.input) : 0 ∉ (eventLoopStep ev writeErr s).state.input := by
  cases ev with
  | EventResize => simp only [eventLoopStep]; rw [drawScreen_input]; exact h
  | EventOther => exact h
  | EventKey key rune =>
    cases key with
    | KeyEsc => exact h
    | KeyBackspace =>
      rw [(backspace_drops_last_byte s rune writeErr).1]
      exact fun hm => h (List.mem_of_mem_dropLast hm)
    | KeyBackspace2 =>
      rw [(backspace_drops_last_byte s rune writeErr).2]
      exact fun hm => h (List.mem_of_mem_dropLast hm)
    | KeyOther =>
      rw [key_appends_encoding]
      split_ifs with hr
      · intro hm
        rcases List.mem_append.mp hm with hm | hm
        · exact h hm
        · exact encodeRune_no_nul rune hr hm
      · exact h
    | KeyEnter =>
      simp only [eventLoopStep]
      split_ifs with h1 h2
      · cases hc : handleCmd (TrimSpace (s.emit (.Lock .inputLock)).input)
            (s.emit (.Lock .inputLock)) with
        | ok s2 =>
          simp only [unlockAndDraw]
          rw [drawScreen_input]
          simp [State.emit]
        | exited s2 =>
          have := handleCmd_input (TrimSpace (s.emit (.Lock .inputLock)).input)
            (s.emit (.Lock .inputLock))
          rw [hc] at this
          simp only [Outcome.state] at this ⊢
          rw [this]
          exact h
        | faulted f s2 =>
          have := handleCmd_input (TrimSpace (s.emit (.Lock .inputLock)).input)
            (s.emit (.Lock .inputLock))
          rw [hc] at this
          simp only [Outcome.state] at this ⊢
          rw [this]
          exact h
      · simp only [unlockAndDraw]
        rw [drawScreen_input]
        simp [State.emit]
      · simp only [unlockAndDraw]
        rw [drawScreen_input]
        simp [State.emit]

/-- The input buffer never holds a NUL byte: starting from a buffer without
one (the program starts with the empty buffer), the event loop reaches only
states whose buffer has none, whatever events arrive. -/
theorem eventLoop_no_nul :
    ∀ (evs : List (tcell.Event × Option GoString)) (s : State), 0 ∉ s.input →
      0 ∉ (eventLoop evs s).state.input := by
  intro evs
  induction evs with
  | nil => intro s h; exact h
  | cons e rest ih =>
    intro s h
    obtain ⟨ev, w⟩ := e
    have hstep := eventLoopStep_no_nul ev w s h
    rw [eventLoop]
    cases hc : eventLoopStep ev w s with
    | ok s2 =>
      rw [hc] at hstep
      exact ih s2 hstep
    | exited s2 => rw [hc] at hstep; exact hstep
    | faulted f s2 => rw [hc] at hstep; exact hstep

/-! ## Sending a chat line and receiving it -/

/-- The receive loop keeps a payload that begins cleanly, whatever bytes
follow: "Émile: hi" (a username that begins with a two-byte character) and
"A: café" (a text that ends with one) are logged as they were sent, and so
is ": hi", the payload of the empty username. -/
theorem trim_keeps_non_ascii :
    cleanStart [0xC3, 0x89, 109, 105, 108, 101] = true
    ∧ TrimSpace (trimNul ([0xC3, 0x89, 109, 105, 108, 101] ++ lit ": " ++ lit "hi"))
        = [0xC3, 0x89, 109, 105, 108, 101] ++ lit ": " ++ lit "hi"
    ∧ cleanStart (lit "A") = true
    ∧ TrimSpace (trimNul (lit "A" ++ lit ": " ++ [99, 97, 102, 0xC3, 0xA9]))
        = lit "A" ++ lit ": " ++ [99, 97, 102, 0xC3, 0xA9]
    ∧ cleanStart [] = true
    ∧ TrimSpace (trimNul ([] ++ lit ": " ++ lit "hi")) = [] ++ lit ": " ++ lit "hi" := by
  decide

/-- C4: for every IPv4 address `a.b.c.d`, given as the 4-byte slice or as the
16-byte IPv4-mapped slice, `calcBroadcast` returns the decimal octets `a`, `b`,
`c` and the literal 255 joined by dots; the result is the same for every last
octet `d` (the function takes no subnet mask, so none can influence it); and
192.168.1.42 gives "192.168.1.255". -/
theorem calcBroadcast_keeps_first_three_octets (a b c d : Nat) :
    calcBroadcast [a, b, c, d]
        = some (toString a ++ "." ++ toString b ++ "." ++ toString c ++ "." ++ "255")
    ∧ calcBroadcast [0, 0, 0, 0, 0, 0, 0, 0, 0, 0, 0xff, 0xff, a, b, c, d]
        = calcBroadcast [a, b, c, d]
    ∧ (∀ d2 : Nat, calcBroadcast [a, b, c, d2] = calcBroadcast [a, b, c, d])
    ∧ calcBroadcast [192, 168, 1, 42] = some "192.168.1.255" := by
  refine ⟨?_, ?_, ?_, by decide⟩
  · simp [calcBroadcast, To4, String.append_assoc]
  · simp [calcBroadcast, To4]
  · intro d2
    simp [calcBroadcast, To4]

/-! ## The input row and the Backspace key -/

/-- What `drawInput` keeps of the bar for a width that is not negative: the
last `w` bytes of "> " followed by the buffer. -/
theorem inputBar_last_bytes (w : Int) (hw : 0 ≤ w) (input : GoString) :
    inputBar w input = .ok (lastN w.toNat (lit "> " ++ input)) := by
  unfold inputBar lastN
  simp only
  split
  · rw [if_neg (by omega)]
  · rw [show (lit "> " ++ input).length - w.toNat = 0 by omega, List.drop_zero]

/-- C7 fails on a non-ASCII character: typing "é" (U+00E9) into the empty
buffer stores its two UTF-8 bytes, and Backspace then removes only the last
byte, leaving the lone byte 0xC3 instead of the empty buffer; after the ASCII
character "e" the same key does restore the empty buffer. -/
theorem backspace_removes_a_byte_not_a_character :
    (eventLoop [(.EventKey .KeyOther 0xE9, none)]
        ⟨lit "A", [], [], true, 5000, (20, 5), []⟩).state.input = [0xC3, 0xA9]
    ∧ (eventLoop [(.EventKey .KeyOther 0xE9, none), (.EventKey .KeyBackspace 0, none)]
        ⟨lit "A", [], [], true, 5000, (20, 5), []⟩).state.input = [0xC3]
    ∧ (eventLoop [(.EventKey .KeyOther 0xE9, none), (.EventKey .KeyBackspace2 0, none)]
        ⟨lit "A", [], [], true, 5000, (20, 5), []⟩).state.input = [0xC3]
    ∧ (eventLoop [(.EventKey .KeyOther 0x65, none), (.EventKey .KeyBackspace 0, none)]
        ⟨lit "A", [], [], true, 5000, (20, 5), []⟩).state.input = [] := by
  decide

/-- C6 fails on a non-ASCII character: with the buffer holding "é" (typed as
U+00E9, two bytes) the string "> é" has three characters.  At width 2 the
claim wants the last two characters, " é"; `drawInput` keeps the last two
bytes and paints "é" alone.  At width 3 the string fits and the claim wants
it unchanged; `drawInput` sees four bytes, drops ">" and paints " é".  At
width 1 the cut falls inside the character and U+FFFD is painted. -/
theorem drawInput_cuts_bytes_not_characters :
    (eventLoop [(.EventKey .KeyOther 0xE9, none)]
        ⟨lit "A", [], [], true, 5000, (20, 5), []⟩).state.input = [0xC3, 0xA9]
    ∧ paintedBar 2 [0xC3, 0xA9] = [0xE9]
    ∧ lastN 2 (barRunes [0xE9]) = [32, 0xE9]
    ∧ paintedBar 3 [0xC3, 0xA9] = [32, 0xE9]
    ∧ lastN 3 (barRunes [0xE9]) = [62, 32, 0xE9]
    ∧ paintedBar 1 [0xC3, 0xA9] = [RuneError]
    ∧ lastN 1 (barRunes [0xE9]) = [0xE9]
    ∧ drawInput 2 3 ⟨lit "A", [], [0xC3, 0xA9], true, 5000, (2, 3), []⟩
        = .ok ⟨lit "A", [], [0xC3, 0xA9], true, 5000, (2, 3),
            [Effect.Lock .inputLock,
             Effect.SetContent 0 2 32 ⟨some .ColorAqua, none⟩,
             Effect.SetContent 1 2 32 ⟨some .ColorAqua, none⟩,
             Effect.SetContent 0 2 0xE9 ⟨some .ColorAqua, none⟩,
             Effect.Unlock .inputLock]⟩ := by
  decide

end PacketChat
